import Mathlib

/-!
Shallow embedding of the `pwdg` password generator (Rust) and proofs of
its specification's claims.

Source files embedded:
- `src/util/uint.rs` (`checked_sum` over `usize`)
- `src/util/filter.rs` (`filtered_range`)
- `src/charset.rs` (`SPECIAL_CHARS`)
- `src/error.rs` (`Error`)
- `src/generator.rs` (`PwdGenOptions`, `PwdGen::new`, `validate_input`,
  `PwdGen::gen`, `add_random_chars`)

Randomness (`OsRng`, `SliceRandom::choose`, `SliceRandom::shuffle`) is
modelled by an explicit stream of natural numbers threaded through the
computation; `choose` picks index `r % len` and `shuffle` is the
Fisher-Yates loop of the `rand` crate (`for i in (1..len).rev()
{ swap(i, gen_range(0..=i)) }`).  A Rust panic is modelled by `none`.
-/

namespace Pwdg

/-- The value `usize::MAX` on a 64-bit target: counts in the source are `usize`. -/
def USIZE_MAX : Nat := 2 ^ 64 - 1

/-- Rust's `usize::checked_add`: `none` models overflow. -/
def checkedAdd (a b : Nat) : Option Nat :=
  if a + b ≤ USIZE_MAX then some (a + b) else none

/-- Loop body of `checked_sum` (src/util/uint.rs): fold `checked_add`
over the items, starting from `Default::default()` = 0, aborting with
`None` on overflow. -/
def checkedSumGo (acc : Nat) : List Nat → Option Nat
  | [] => some acc
  | x :: xs =>
    match checkedAdd acc x with
    | some s => checkedSumGo s xs
    | none => none

/-- The function `checked_sum` (src/util/uint.rs). -/
def checkedSum (l : List Nat) : Option Nat := checkedSumGo 0 l

/-- The function `filtered_range` (src/util/filter.rs): keep, in order, the elements
of `range` not contained in the exclusion set.  The Rust `HashSet` is
modelled by a list used only through membership. -/
def filteredRange (range : List Char) (exclude : Option (List Char)) : List Char :=
  match exclude with
  | some exclusions => range.filter (fun c => decide (c ∉ exclusions))
  | none => range

/-- The uppercase domain `'A'..='Z'`. -/
def upperChars : List Char := (List.range 26).map (fun i => Char.ofNat (65 + i))

/-- The lowercase domain `'a'..='z'`. -/
def lowerChars : List Char := (List.range 26).map (fun i => Char.ofNat (97 + i))

/-- The digit domain `'0'..='9'`. -/
def digitChars : List Char := (List.range 10).map (fun i => Char.ofNat (48 + i))

/-- The constant `SPECIAL_CHARS` (src/charset.rs): the fixed 32-character special
list, written by code point in the source's order
`! @ # $ % ^ & * ( ) _ + - = { } [ ] | : ; " ' < > , . ? / ~ \ (backtick)`. -/
def SPECIAL_CHARS : List Char :=
  [33, 64, 35, 36, 37, 94, 38, 42, 40, 41, 95, 43, 45, 61, 123, 125,
   91, 93, 124, 58, 59, 34, 39, 60, 62, 44, 46, 63, 47, 126, 92, 96].map Char.ofNat

/-- The constant `MIN_LENGTH` (src/generator.rs). -/
def MIN_LENGTH : Nat := 8

/-- The struct `PwdGenOptions` (src/generator.rs).  The Rust `Option<&str>` exclusion
string is modelled as an optional list of characters. -/
structure PwdGenOptions where
  min_upper : Nat
  min_lower : Nat
  min_digit : Nat
  min_special : Nat
  exclude : Option (List Char)
deriving DecidableEq, Repr

/-- The constructor `PwdGenOptions::default_` (src/generator.rs). -/
def PwdGenOptions.default_ : PwdGenOptions :=
  { min_upper := 0, min_lower := 0, min_digit := 0, min_special := 0,
    exclude := none }

instance : Inhabited PwdGenOptions := ⟨PwdGenOptions.default_⟩

/-- The enum `Error` (src/error.rs). -/
inductive Error where
  | length
  | minLimitExceeded
  | insufficientCharacters (category : String)
deriving DecidableEq, Repr

/-- The struct `CharacterSet` (src/generator.rs). -/
structure CharacterSet where
  upper : List Char
  lower : List Char
  digit : List Char
  special : List Char
deriving DecidableEq, Repr

/-- The exclusion set built in `validate_input`:
`options.exclude.unwrap_or("").chars().collect()`. -/
def exclSet (o : PwdGenOptions) : List Char := o.exclude.getD []

/-- The filtered upper pool computed in `validate_input`. -/
def poolUpper (o : PwdGenOptions) : List Char :=
  filteredRange upperChars (some (exclSet o))

/-- The filtered lower pool computed in `validate_input`. -/
def poolLower (o : PwdGenOptions) : List Char :=
  filteredRange lowerChars (some (exclSet o))

/-- The filtered digit pool computed in `validate_input`. -/
def poolDigit (o : PwdGenOptions) : List Char :=
  filteredRange digitChars (some (exclSet o))

/-- The filtered special pool computed in `validate_input`. -/
def poolSpecial (o : PwdGenOptions) : List Char :=
  filteredRange SPECIAL_CHARS (some (exclSet o))

/-- The function `PwdGen::validate_input` (src/generator.rs): length floor first, then
overflow-checked sum of the four minimums against the length, then the
four pools in the order upper, lower, digit, special. -/
def validate_input (length : Nat) (o : PwdGenOptions) : Except Error CharacterSet :=
  if length < MIN_LENGTH then
    .error .length
  else
    match checkedSum [o.min_upper, o.min_lower, o.min_digit, o.min_special] with
    | none => .error .minLimitExceeded
    | some minTotal =>
      if minTotal > length then .error .minLimitExceeded
      else if (poolUpper o).length < o.min_upper then
        .error (.insufficientCharacters "upper")
      else if (poolLower o).length < o.min_lower then
        .error (.insufficientCharacters "lower")
      else if (poolDigit o).length < o.min_digit then
        .error (.insufficientCharacters "digit")
      else if (poolSpecial o).length < o.min_special then
        .error (.insufficientCharacters "special")
      else
        .ok ⟨poolUpper o, poolLower o, poolDigit o, poolSpecial o⟩

/-- The struct `PwdGen` (src/generator.rs). -/
structure PwdGen where
  length : Nat
  options : PwdGenOptions
  charset : List Char
  upper : List Char
  lower : List Char
  digit : List Char
  special : List Char
deriving DecidableEq, Repr

/-- The constructor `PwdGen::new` (src/generator.rs): validate, then store the pools and
their concatenation. -/
def PwdGen.new (length : Nat) (options : Option PwdGenOptions) :
    Except Error PwdGen :=
  let o := options.getD PwdGenOptions.default_
  match validate_input length o with
  | .error e => .error e
  | .ok cs =>
    .ok { length := length, options := o,
          charset := cs.upper ++ cs.lower ++ cs.digit ++ cs.special,
          upper := cs.upper, lower := cs.lower,
          digit := cs.digit, special := cs.special }

/-- The random source: an infinite stream of draws plus a cursor.  Each
draw reads `seq idx` and advances the cursor. -/
structure Rng where
  seq : Nat → Nat
  idx : Nat

/-- One raw draw from the source. -/
def Rng.next (g : Rng) : Nat × Rng := (g.seq g.idx, { g with idx := g.idx + 1 })

/-- Rust's `SliceRandom::choose`: `None` on an empty slice (no randomness
consumed), otherwise a uniform index `r % len`. -/
def choose (l : List Char) (g : Rng) : Option Char × Rng :=
  match l with
  | [] => (none, g)
  | _ :: _ => (l[g.next.1 % l.length]?, g.next.2)

/-- The function `PwdGen::add_random_chars` (src/generator.rs):
`chars.extend((0..count).filter_map(|_| range.choose(&mut OsRng)))`.
Returns the drawn characters in draw order together with the advanced
source. -/
def addRandomChars (range : List Char) : Nat → Rng → List Char × Rng
  | 0, g => ([], g)
  | n + 1, g =>
    match choose range g with
    | (none, g1) => addRandomChars range n g1
    | (some c, g1) =>
      (c :: (addRandomChars range n g1).1, (addRandomChars range n g1).2)

/-- The fill step of `gen`:
`repeat_with(|| *charset.choose(rng).expect("Filtered charset is nonempty")).take(n)`.
`none` models the panic on an empty charset. -/
def fillChars (charset : List Char) : Nat → Rng → Option (List Char × Rng)
  | 0, g => some ([], g)
  | n + 1, g =>
    match choose charset g with
    | (none, _) => none
    | (some c, g1) =>
      match fillChars charset n g1 with
      | none => none
      | some r => some (c :: r.1, r.2)

/-- Swap two positions of a list; out-of-range indices leave the list
unchanged (the shuffle only ever uses in-range indices). -/
def listSwap (l : List Char) (i j : Nat) : List Char :=
  match l[i]?, l[j]? with
  | some a, some b => (l.set i b).set j a
  | _, _ => l

/-- The Fisher-Yates loop of `rand`'s `SliceRandom::shuffle`:
`for i in (1..len).rev() { swap(i, gen_range(0..=i)) }`.  The `Nat`
argument is the current index `i`; at `0` the loop has ended. -/
def shuffleLoop : Nat → List Char → Rng → List Char × Rng
  | 0, l, g => (l, g)
  | i + 1, l, g =>
    shuffleLoop i (listSwap l (i + 1) (g.next.1 % (i + 2))) g.next.2

/-- Rust's `SliceRandom::shuffle`, entered at index `len - 1`. -/
def shuffle (l : List Char) (g : Rng) : List Char × Rng :=
  shuffleLoop (l.length - 1) l g

/-- The first phase of `PwdGen::gen`: the four `add_random_chars` calls,
in source order upper, lower, digit, special, accumulating one buffer. -/
def minPhase (p : PwdGen) (g : Rng) : List Char × Rng :=
  let r1 := addRandomChars p.upper p.options.min_upper g
  let r2 := addRandomChars p.lower p.options.min_lower r1.2
  let r3 := addRandomChars p.digit p.options.min_digit r2.2
  let r4 := addRandomChars p.special p.options.min_special r3.2
  (r1.1 ++ (r2.1 ++ (r3.1 ++ r4.1)), r4.2)

/-- The function `PwdGen::gen` (src/generator.rs): draw the per-category minimums,
fill up to `length` from the combined charset, shuffle.  `none` models
the `expect` panic of the fill step. -/
def PwdGen.gen (p : PwdGen) (g : Rng) : Option (List Char) :=
  match fillChars p.charset (p.length - (minPhase p g).1.length) (minPhase p g).2 with
  | none => none
  | some fr => some (shuffle ((minPhase p g).1 ++ fr.1) fr.2).1

/-- Construct and then generate once: `PwdGen::new(..).map(|g| g.gen())`,
keeping the possible panic of `gen` visible as an inner `Option`. -/
def genAfterNew (length : Nat) (o : PwdGenOptions) (g : Rng) :
    Except Error (Option (List Char)) :=
  (PwdGen.new length (some o)).map (fun p => p.gen g)

/-- The first category, in the fixed check order upper, lower, digit,
special, whose filtered pool is smaller than its minimum. -/
def firstInsufficient (o : PwdGenOptions) : Option String :=
  if (poolUpper o).length < o.min_upper then some "upper"
  else if (poolLower o).length < o.min_lower then some "lower"
  else if (poolDigit o).length < o.min_digit then some "digit"
  else if (poolSpecial o).length < o.min_special then some "special"
  else none

/-- Modelled from the spec: the "Filtered Pool" of §3, "the ordered
sequence of characters remaining in a category after removing every
character present in the exclusion set". -/
def specFilteredPool (domain : List Char) (exclusion : List Char) : List Char :=
  domain.filter (fun c => decide (c ∉ exclusion))

/-- A concrete deterministic random source used by witnesses. -/
def rng0 : Rng := ⟨fun _ => 0, 0⟩

/-- The pathological options of the empty-alphabet corner: all minimums
zero and every character of all four domains excluded. -/
def emptyAllOpts : PwdGenOptions :=
  { min_upper := 0, min_lower := 0, min_digit := 0, min_special := 0,
    exclude := some (upperChars ++ lowerChars ++ digitChars ++ SPECIAL_CHARS) }

/-- The generator instance `PwdGen::new` returns for `emptyAllOpts` at
length 8: all four pools, and hence the combined charset, are empty. -/
def genEmptyAll : PwdGen :=
  { length := 8, options := emptyAllOpts, charset := [],
    upper := [], lower := [], digit := [], special := [] }

/-- The generator built by a successful validation, field by field as
`PwdGen::new` assembles it. -/
def mkPwdGen (length : Nat) (o : PwdGenOptions) : PwdGen :=
  { length := length, options := o,
    charset := poolUpper o ++ poolLower o ++ poolDigit o ++ poolSpecial o,
    upper := poolUpper o, lower := poolLower o,
    digit := poolDigit o, special := poolSpecial o }

/-- The instance `PwdGen::new(8, default options)` returns. -/
def gDefault : PwdGen := mkPwdGen 8 PwdGenOptions.default_

/-- Options whose minimums sum past `usize::MAX`. -/
def overflowOpts : PwdGenOptions :=
  { min_upper := USIZE_MAX, min_lower := 1, min_digit := 0, min_special := 0,
    exclude := none }

/-- Options excluding a single uppercase character, for witnesses. -/
def exOpts : PwdGenOptions :=
  { min_upper := 1, min_lower := 1, min_digit := 0, min_special := 0,
    exclude := some [Char.ofNat 65] }

/-- The instance `PwdGen::new(9, exOpts)` returns. -/
def gEx : PwdGen := mkPwdGen 9 exOpts

/-- Options excluding every uppercase and every lowercase character while
requiring one of each, for the insufficient-category witness. -/
def insufOpts : PwdGenOptions :=
  { min_upper := 0, min_lower := 1, min_digit := 0, min_special := 0,
    exclude := some lowerChars }

/-! ### Arithmetic lemmas about `checked_sum` -/

theorem checkedAdd_some {a b s : Nat} (h : checkedAdd a b = some s) :
    s = a + b ∧ a + b ≤ USIZE_MAX := by
  unfold checkedAdd at h
  split at h
  · injection h with h
    exact ⟨h.symm, by assumption⟩
  · cases h

theorem checkedSumGo_some {l : List Nat} : ∀ {acc s : Nat},
    checkedSumGo acc l = some s →
    s = acc + l.sum ∧ (l ≠ [] → acc + l.sum ≤ USIZE_MAX) := by
  induction l with
  | nil =>
    intro acc s h
    injection h with h
    subst h
    simp
  | cons x xs ih =>
    intro acc s h
    rw [checkedSumGo] at h
    split at h
    · rename_i t hc
      obtain ⟨ht, hb⟩ := checkedAdd_some hc
      obtain ⟨hs, hbnd⟩ := ih h
      subst ht
      refine ⟨by simp [hs]; omega, fun _ => ?_⟩
      rcases eq_or_ne xs [] with he | he
      · subst he
        simpa using hb
      · have := hbnd he
        simp only [List.sum_cons]
        omega
    · cases h

theorem checkedSumGo_eq_some {l : List Nat} : ∀ {acc : Nat},
    acc + l.sum ≤ USIZE_MAX → checkedSumGo acc l = some (acc + l.sum) := by
  induction l with
  | nil =>
    intro acc h
    simp [checkedSumGo]
  | cons x xs ih =>
    intro acc h
    simp only [List.sum_cons] at h
    have hc : checkedAdd acc x = some (acc + x) := if_pos (by omega)
    rw [checkedSumGo]
    simp only [hc, List.sum_cons]
    rw [← Nat.add_assoc]
    exact ih (by omega)

theorem checkedSum_four (a b c d : Nat) (h : a + b + c + d ≤ USIZE_MAX) :
    checkedSum [a, b, c, d] = some (a + b + c + d) := by
  have hsum : (0 : Nat) + [a, b, c, d].sum ≤ USIZE_MAX := by
    simp only [List.sum_cons, List.sum_nil]
    omega
  rw [checkedSum, checkedSumGo_eq_some hsum]
  congr 1
  simp only [List.sum_cons, List.sum_nil]
  omega

theorem checkedSum_four_inv {a b c d s : Nat}
    (h : checkedSum [a, b, c, d] = some s) :
    s = a + b + c + d ∧ a + b + c + d ≤ USIZE_MAX := by
  obtain ⟨hs, hb⟩ := checkedSumGo_some h
  simp only [List.sum_cons, List.sum_nil] at hs
  have hbnd := hb (by simp)
  simp only [List.sum_cons, List.sum_nil] at hbnd
  exact ⟨by omega, by omega⟩

/-! ### The success and failure shapes of validation -/

theorem validate_input_eq_ok (length : Nat) (o : PwdGenOptions)
    (h8 : MIN_LENGTH ≤ length)
    (hof : o.min_upper + o.min_lower + o.min_digit + o.min_special ≤ USIZE_MAX)
    (hsum : o.min_upper + o.min_lower + o.min_digit + o.min_special ≤ length)
    (hu : o.min_upper ≤ (poolUpper o).length)
    (hl : o.min_lower ≤ (poolLower o).length)
    (hd : o.min_digit ≤ (poolDigit o).length)
    (hs : o.min_special ≤ (poolSpecial o).length) :
    validate_input length o =
      .ok ⟨poolUpper o, poolLower o, poolDigit o, poolSpecial o⟩ := by
  have hcs := checkedSum_four o.min_upper o.min_lower o.min_digit o.min_special hof
  unfold validate_input
  rw [if_neg (by omega)]
  split
  · rename_i hnone
    rw [hcs] at hnone
    cases hnone
  · rename_i mt hmt
    rw [hcs] at hmt
    injection hmt with hmt
    rw [if_neg (by omega), if_neg (by omega), if_neg (by omega),
      if_neg (by omega), if_neg (by omega)]

theorem validate_input_ok_inv {length : Nat} {o : PwdGenOptions}
    {cs : CharacterSet} (h : validate_input length o = .ok cs) :
    cs = ⟨poolUpper o, poolLower o, poolDigit o, poolSpecial o⟩ ∧
    MIN_LENGTH ≤ length ∧
    o.min_upper ≤ (poolUpper o).length ∧
    o.min_lower ≤ (poolLower o).length ∧
    o.min_digit ≤ (poolDigit o).length ∧
    o.min_special ≤ (poolSpecial o).length ∧
    o.min_upper + o.min_lower + o.min_digit + o.min_special ≤ length := by
  unfold validate_input at h
  split at h
  · cases h
  split at h
  · cases h
  rename_i mt hmt
  obtain ⟨hmts, _⟩ :=
    checkedSum_four_inv (a := o.min_upper) (b := o.min_lower)
      (c := o.min_digit) (d := o.min_special) hmt
  split_ifs at h with h1 h2 h3 h4 h5
  injection h with h
  exact ⟨h.symm, by omega, by omega, by omega, by omega, by omega, by omega⟩

theorem new_eq_ok (length : Nat) (o : PwdGenOptions)
    (h8 : MIN_LENGTH ≤ length)
    (hof : o.min_upper + o.min_lower + o.min_digit + o.min_special ≤ USIZE_MAX)
    (hsum : o.min_upper + o.min_lower + o.min_digit + o.min_special ≤ length)
    (hu : o.min_upper ≤ (poolUpper o).length)
    (hl : o.min_lower ≤ (poolLower o).length)
    (hd : o.min_digit ≤ (poolDigit o).length)
    (hs : o.min_special ≤ (poolSpecial o).length) :
    PwdGen.new length (some o) = .ok (mkPwdGen length o) := by
  unfold PwdGen.new
  simp only [Option.getD_some]
  rw [validate_input_eq_ok length o h8 hof hsum hu hl hd hs]
  rfl

theorem new_ok_inv {length : Nat} {o : PwdGenOptions} {g : PwdGen}
    (h : PwdGen.new length (some o) = .ok g) :
    g = mkPwdGen length o ∧
    MIN_LENGTH ≤ length ∧
    o.min_upper ≤ (poolUpper o).length ∧
    o.min_lower ≤ (poolLower o).length ∧
    o.min_digit ≤ (poolDigit o).length ∧
    o.min_special ≤ (poolSpecial o).length ∧
    o.min_upper + o.min_lower + o.min_digit + o.min_special ≤ length := by
  unfold PwdGen.new at h
  simp only [Option.getD_some] at h
  split at h
  · cases h
  · rename_i cs hcs
    injection h with h
    obtain ⟨hcseq, h8, hu, hl, hd, hs, hsum⟩ := validate_input_ok_inv hcs
    subst hcseq
    exact ⟨h.symm, h8, hu, hl, hd, hs, hsum⟩

/-! ### Draw lemmas -/

theorem choose_eq_some {l : List Char} {g : Rng} {c : Char} {g1 : Rng}
    (h : choose l g = (some c, g1)) : c ∈ l := by
  match l with
  | [] => cases h
  | x :: xs =>
    simp only [choose, Prod.mk.injEq] at h
    obtain ⟨hlt, hv⟩ := List.getElem?_eq_some_iff.mp h.1
    exact hv ▸ List.getElem_mem hlt

theorem choose_ne_nil {l : List Char} (hl : l ≠ []) (g : Rng) :
    ∃ c, choose l g = (some c, g.next.2) := by
  match l with
  | [] => exact absurd rfl hl
  | x :: xs =>
    have hlt : g.next.1 % (x :: xs).length < (x :: xs).length :=
      Nat.mod_lt _ (by simp)
    refine ⟨(x :: xs)[g.next.1 % (x :: xs).length], ?_⟩
    show ((x :: xs)[g.next.1 % (x :: xs).length]?, g.next.2) = _
    rw [List.getElem?_eq_getElem hlt]

theorem addRandomChars_mem (range : List Char) (n : Nat) (g : Rng) (c : Char)
    (h : c ∈ (addRandomChars range n g).1) : c ∈ range := by
  induction n generalizing g with
  | zero => simp [addRandomChars] at h
  | succ n ih =>
    rw [addRandomChars] at h
    split at h
    · exact ih _ h
    · rename_i c0 g1 hch
      rcases List.mem_cons.mp h with h | h
      · exact h ▸ choose_eq_some hch
      · exact ih _ h

theorem addRandomChars_length_le (range : List Char) (n : Nat) (g : Rng) :
    (addRandomChars range n g).1.length ≤ n := by
  induction n generalizing g with
  | zero => simp [addRandomChars]
  | succ n ih =>
    rw [addRandomChars]
    split
    · exact Nat.le_succ_of_le (ih _)
    · simpa using ih _

theorem addRandomChars_length_of_le {range : List Char} {n : Nat}
    (h : n ≤ range.length) (g : Rng) :
    (addRandomChars range n g).1.length = n := by
  induction n generalizing g with
  | zero => simp [addRandomChars]
  | succ n ih =>
    have hne : range ≠ [] := by
      intro he
      rw [he] at h
      simp at h
    obtain ⟨c, hch⟩ := choose_ne_nil hne g
    rw [addRandomChars, hch]
    simpa using ih (Nat.le_of_succ_le h) _

theorem fillChars_ok {charset : List Char} (hne : charset ≠ []) (n : Nat)
    (g : Rng) :
    ∃ r, fillChars charset n g = some r ∧ r.1.length = n ∧
      ∀ c ∈ r.1, c ∈ charset := by
  induction n generalizing g with
  | zero => exact ⟨([], g), rfl, rfl, by simp⟩
  | succ n ih =>
    obtain ⟨c, hch⟩ := choose_ne_nil hne g
    obtain ⟨r, hr, hlen, hm⟩ := ih g.next.2
    refine ⟨(c :: r.1, r.2), ?_, by simp [hlen], ?_⟩
    · simp only [fillChars, hch, hr]
    · intro d hd
      rcases List.mem_cons.mp hd with h | h
      · exact h ▸ choose_eq_some hch
      · exact hm d h

theorem fillChars_inv {charset : List Char} {n : Nat} {g : Rng}
    {r : List Char × Rng} (h : fillChars charset n g = some r) :
    r.1.length = n ∧ ∀ c ∈ r.1, c ∈ charset := by
  induction n generalizing g r with
  | zero =>
    rw [fillChars] at h
    injection h with h
    subst h
    simp
  | succ n ih =>
    rw [fillChars] at h
    split at h
    · cases h
    · rename_i c g1 hch
      split at h
      · cases h
      · rename_i r1 hr1
        injection h with h
        subst h
        obtain ⟨hlen, hm⟩ := ih hr1
        refine ⟨by simp [hlen], ?_⟩
        intro d hd
        rcases List.mem_cons.mp hd with h | h
        · exact h ▸ choose_eq_some hch
        · exact hm d h

/-! ### The shuffle is a permutation -/

theorem listSwap_count (l : List Char) (i j : Nat) (x : Char) :
    (listSwap l i j).count x = l.count x := by
  unfold listSwap
  split
  · rename_i a b hi hj
    obtain ⟨hi', hia⟩ := List.getElem?_eq_some_iff.mp hi
    obtain ⟨hj', hjb⟩ := List.getElem?_eq_some_iff.mp hj
    have hal : a ∈ l := hia ▸ List.getElem_mem hi'
    have hbl : b ∈ l := hjb ▸ List.getElem_mem hj'
    have hj2 : j < (l.set i b).length := by simpa using hj'
    have hsetj : (l.set i b)[j] = b := by
      by_cases hij : i = j
      · subst hij
        simp
      · rw [List.getElem_set_ne hij]
        exact hjb
    rw [List.count_set a x (l.set i b) j hj2, List.count_set b x l i hi',
      hsetj, hia]
    have hax : (if (a == x) = true then 1 else 0) ≤ l.count x := by
      split
      · rename_i hax
        have hx : a = x := by simpa using hax
        exact List.count_pos_iff.mpr (hx ▸ hal)
      · exact Nat.zero_le _
    have hbx : (if (b == x) = true then 1 else 0) ≤ l.count x := by
      split
      · rename_i hbx
        have hx : b = x := by simpa using hbx
        exact List.count_pos_iff.mpr (hx ▸ hbl)
      · exact Nat.zero_le _
    omega
  · rfl

theorem listSwap_perm (l : List Char) (i j : Nat) : (listSwap l i j).Perm l :=
  List.perm_iff_count.mpr (listSwap_count l i j)

theorem shuffleLoop_perm (n : Nat) (l : List Char) (g : Rng) :
    ((shuffleLoop n l g).1).Perm l := by
  induction n generalizing l g with
  | zero => exact List.Perm.refl l
  | succ n ih =>
    rw [shuffleLoop]
    exact (ih _ _).trans (listSwap_perm l (n + 1) _)

theorem shuffle_perm (l : List Char) (g : Rng) : ((shuffle l g).1).Perm l :=
  shuffleLoop_perm _ l g

/-! ### The two phases of generation -/

theorem minPhase_spec (p : PwdGen) (g : Rng) :
    ∃ u lo d s,
      (minPhase p g).1 = u ++ (lo ++ (d ++ s)) ∧
      (∀ c ∈ u, c ∈ p.upper) ∧ (∀ c ∈ lo, c ∈ p.lower) ∧
      (∀ c ∈ d, c ∈ p.digit) ∧ (∀ c ∈ s, c ∈ p.special) ∧
      u.length ≤ p.options.min_upper ∧ lo.length ≤ p.options.min_lower ∧
      d.length ≤ p.options.min_digit ∧ s.length ≤ p.options.min_special ∧
      (p.options.min_upper ≤ p.upper.length →
        u.length = p.options.min_upper) ∧
      (p.options.min_lower ≤ p.lower.length →
        lo.length = p.options.min_lower) ∧
      (p.options.min_digit ≤ p.digit.length →
        d.length = p.options.min_digit) ∧
      (p.options.min_special ≤ p.special.length →
        s.length = p.options.min_special) := by
  refine ⟨_, _, _, _, rfl, ?_, ?_, ?_, ?_, ?_, ?_, ?_, ?_, ?_, ?_, ?_, ?_⟩
  · exact fun c hc => addRandomChars_mem _ _ _ _ hc
  · exact fun c hc => addRandomChars_mem _ _ _ _ hc
  · exact fun c hc => addRandomChars_mem _ _ _ _ hc
  · exact fun c hc => addRandomChars_mem _ _ _ _ hc
  · exact addRandomChars_length_le _ _ _
  · exact addRandomChars_length_le _ _ _
  · exact addRandomChars_length_le _ _ _
  · exact addRandomChars_length_le _ _ _
  · exact fun h => addRandomChars_length_of_le h _
  · exact fun h => addRandomChars_length_of_le h _
  · exact fun h => addRandomChars_length_of_le h _
  · exact fun h => addRandomChars_length_of_le h _

theorem gen_some_inv {p : PwdGen} {g : Rng} {out : List Char}
    (h : p.gen g = some out) :
    ∃ fr, fillChars p.charset (p.length - (minPhase p g).1.length)
        (minPhase p g).2 = some fr ∧
      out.Perm ((minPhase p g).1 ++ fr.1) := by
  unfold PwdGen.gen at h
  split at h
  · cases h
  · rename_i fr hfr
    injection h with h
    exact ⟨fr, hfr, h ▸ shuffle_perm _ _⟩

theorem gen_total {p : PwdGen} (hcs : p.charset ≠ []) (g : Rng) :
    ∃ out, p.gen g = some out ∧
      out.length = (minPhase p g).1.length +
        (p.length - (minPhase p g).1.length) := by
  obtain ⟨r, hr, hlen, _⟩ :=
    fillChars_ok hcs (p.length - (minPhase p g).1.length) (minPhase p g).2
  refine ⟨(shuffle ((minPhase p g).1 ++ r.1) r.2).1, ?_, ?_⟩
  · simp only [PwdGen.gen, hr]
  · rw [(shuffle_perm _ _).length_eq]
    simp [hlen]

theorem mem_pool_not_excluded {dom exs : List Char} {c : Char}
    (h : c ∈ filteredRange dom (some exs)) : c ∉ exs := by
  simp only [filteredRange, List.mem_filter, decide_eq_true_eq] at h
  exact h.2

theorem validate_input_minLimit (length : Nat) (o : PwdGenOptions)
    (h8 : MIN_LENGTH ≤ length)
    (hbad : checkedSum [o.min_upper, o.min_lower, o.min_digit,
        o.min_special] = none ∨
      ∃ s, checkedSum [o.min_upper, o.min_lower, o.min_digit,
        o.min_special] = some s ∧ length < s) :
    validate_input length o = .error .minLimitExceeded := by
  unfold validate_input
  rw [if_neg (by omega)]
  rcases hbad with hnone | ⟨s, hsome, hlt⟩
  · split
    · rfl
    · rename_i mt hmt
      rw [hnone] at hmt
      cases hmt
  · split
    · rfl
    · rename_i mt hmt
      rw [hsome] at hmt
      injection hmt with hmt
      subst hmt
      rw [if_pos (by omega)]

theorem validate_input_insufficient (length : Nat) (o : PwdGenOptions)
    (s : Nat) (c : String)
    (h8 : MIN_LENGTH ≤ length)
    (hsome : checkedSum [o.min_upper, o.min_lower, o.min_digit,
      o.min_special] = some s)
    (hsl : s ≤ length)
    (hc : firstInsufficient o = some c) :
    validate_input length o = .error (.insufficientCharacters c) := by
  unfold validate_input
  rw [if_neg (by omega)]
  split
  · rename_i hnone
    rw [hsome] at hnone
    cases hnone
  · rename_i mt hmt
    rw [hsome] at hmt
    injection hmt with hmt
    subst hmt
    rw [if_neg (by omega)]
    unfold firstInsufficient at hc
    split_ifs at hc with h1 h2 h3 h4
    · rw [if_pos h1]
      injection hc with hc
      rw [hc]
    · rw [if_neg h1, if_pos h2]
      injection hc with hc
      rw [hc]
    · rw [if_neg h1, if_neg h2, if_pos h3]
      injection hc with hc
      rw [hc]
    · rw [if_neg h1, if_neg h2, if_neg h3, if_pos h4]
      injection hc with hc
      rw [hc]

/-! ### Claims -/

/-- C1 (amended): for every length ≥ 8 and every constraint set whose
four-category minimum sum does not overflow `usize` and is ≤ the length,
whose four filtered pools each have size ≥ the corresponding minimum,
and whose four filtered pools are not all empty, a generator constructed
by `PwdGen::new` succeeds and every call of `gen` on it returns a
sequence of exactly `length` characters.  (The nonemptiness hypothesis
is forced: with all four pools empty, construction still succeeds but
`gen` panics; see the counterexample.) -/
theorem C1_gen_returns_exact_length (length : Nat) (o : PwdGenOptions)
    (h8 : MIN_LENGTH ≤ length)
    (hof : o.min_upper + o.min_lower + o.min_digit + o.min_special ≤ USIZE_MAX)
    (hsum : o.min_upper + o.min_lower + o.min_digit + o.min_special ≤ length)
    (hu : o.min_upper ≤ (poolUpper o).length)
    (hl : o.min_lower ≤ (poolLower o).length)
    (hd : o.min_digit ≤ (poolDigit o).length)
    (hs : o.min_special ≤ (poolSpecial o).length)
    (hne : poolUpper o ++ poolLower o ++ poolDigit o ++ poolSpecial o ≠ [])
    (rng : Rng) :
    ∃ g out, PwdGen.new length (some o) = .ok g ∧ g.gen rng = some out ∧
      out.length = length := by
  have hnew := new_eq_ok length o h8 hof hsum hu hl hd hs
  have hcs : (mkPwdGen length o).charset ≠ [] := hne
  obtain ⟨out, hout, hlen⟩ := gen_total hcs rng
  refine ⟨mkPwdGen length o, out, hnew, hout, ?_⟩
  obtain ⟨u, lo, d, s, hdecomp, hmu, hml, hmd, hms, hule, hlle, hdle, hsle,
    hueq, hleq, hdeq, hseq⟩ := minPhase_spec (mkPwdGen length o) rng
  have h1 : u.length = o.min_upper := hueq hu
  have h2 : lo.length = o.min_lower := hleq hl
  have h3 : d.length = o.min_digit := hdeq hd
  have h4 : s.length = o.min_special := hseq hs
  have hmp : (minPhase (mkPwdGen length o) rng).1.length =
      o.min_upper + o.min_lower + o.min_digit + o.min_special := by
    rw [hdecomp]
    simp only [List.length_append]
    omega
  have hglen : (mkPwdGen length o).length = length := rfl
  rw [hlen, hmp, hglen]
  omega

/-- C1 counterexample: at length 8 with every character of all four
domains excluded and all minimums 0, every hypothesis of the claim as
stated holds (the minimum sum is 0 ≤ 8 and every pool has size 0 ≥ its
minimum 0), and `PwdGen::new` succeeds, yet `gen` hits the
empty-charset panic instead of returning an 8-character sequence. -/
theorem C1_counterexample :
    (MIN_LENGTH ≤ 8 ∧
      emptyAllOpts.min_upper + emptyAllOpts.min_lower +
        emptyAllOpts.min_digit + emptyAllOpts.min_special ≤ 8 ∧
      emptyAllOpts.min_upper ≤ (poolUpper emptyAllOpts).length ∧
      emptyAllOpts.min_lower ≤ (poolLower emptyAllOpts).length ∧
      emptyAllOpts.min_digit ≤ (poolDigit emptyAllOpts).length ∧
      emptyAllOpts.min_special ≤ (poolSpecial emptyAllOpts).length) ∧
    PwdGen.new 8 (some emptyAllOpts) = .ok genEmptyAll ∧
    ¬ ∃ out, genEmptyAll.gen rng0 = some out ∧ out.length = 8 := by
  refine ⟨by decide, rfl, ?_⟩
  intro ⟨out, hout, _⟩
  rw [show genEmptyAll.gen rng0 = none from rfl] at hout
  cases hout

/-- C1 witness: at length 10 with default options, construction
succeeds and generation returns exactly 10 characters. -/
theorem C1_witness :
    ∃ g out, PwdGen.new 10 (some PwdGenOptions.default_) = .ok g ∧
      g.gen rng0 = some out ∧ out.length = 10 :=
  C1_gen_returns_exact_length 10 PwdGenOptions.default_ (by decide) (by decide)
    (by decide) (by decide) (by decide) (by decide) (by decide) (by decide) rng0

/-- C2: for every successfully constructed generator, every output of
`gen` contains, for each of the four categories, at least the configured
minimum number of characters drawn from that category's filtered pool. -/
theorem C2_per_category_minimums (length : Nat) (o : PwdGenOptions)
    (g : PwdGen) (rng : Rng) (out : List Char)
    (hnew : PwdGen.new length (some o) = .ok g)
    (hgen : g.gen rng = some out) :
    o.min_upper ≤ out.countP (fun c => decide (c ∈ g.upper)) ∧
    o.min_lower ≤ out.countP (fun c => decide (c ∈ g.lower)) ∧
    o.min_digit ≤ out.countP (fun c => decide (c ∈ g.digit)) ∧
    o.min_special ≤ out.countP (fun c => decide (c ∈ g.special)) := by
  obtain ⟨hgeq, h8, hu, hl, hd, hs, hsum⟩ := new_ok_inv hnew
  subst hgeq
  obtain ⟨fr, hfr, hperm⟩ := gen_some_inv hgen
  obtain ⟨u, lo, d, s, hdecomp, hmu, hml, hmd, hms, hule, hlle, hdle, hsle,
    hueq, hleq, hdeq, hseq⟩ := minPhase_spec (mkPwdGen length o) rng
  have hsplit : ∀ P : Char → Bool, out.countP P =
      u.countP P + (lo.countP P + (d.countP P + s.countP P)) +
        fr.1.countP P := by
    intro P
    rw [hperm.countP_eq P, List.countP_append, hdecomp, List.countP_append,
      List.countP_append, List.countP_append]
  refine ⟨?_, ?_, ?_, ?_⟩
  · have hcu : u.countP (fun c => decide (c ∈ (mkPwdGen length o).upper)) =
        u.length :=
      List.countP_eq_length.mpr (fun a ha => by simpa using hmu a ha)
    have h1 : u.length = o.min_upper := hueq hu
    rw [hsplit, hcu, h1]
    omega
  · have hcl : lo.countP (fun c => decide (c ∈ (mkPwdGen length o).lower)) =
        lo.length :=
      List.countP_eq_length.mpr (fun a ha => by simpa using hml a ha)
    have h2 : lo.length = o.min_lower := hleq hl
    rw [hsplit, hcl, h2]
    omega
  · have hcd : d.countP (fun c => decide (c ∈ (mkPwdGen length o).digit)) =
        d.length :=
      List.countP_eq_length.mpr (fun a ha => by simpa using hmd a ha)
    have h3 : d.length = o.min_digit := hdeq hd
    rw [hsplit, hcd, h3]
    omega
  · have hcs : s.countP (fun c => decide (c ∈ (mkPwdGen length o).special)) =
        s.length :=
      List.countP_eq_length.mpr (fun a ha => by simpa using hms a ha)
    have h4 : s.length = o.min_special := hseq hs
    rw [hsplit, hcs, h4]
    omega

/-- C2 witness: with one uppercase and one lowercase required and the
character A excluded, the generated output contains at least one
character of the filtered upper pool. -/
theorem C2_witness :
    gEx.gen rng0 = some ((gEx.gen rng0).getD []) ∧
    exOpts.min_upper ≤
      ((gEx.gen rng0).getD []).countP (fun c => decide (c ∈ gEx.upper)) :=
  ⟨rfl,
    (C2_per_category_minimums 9 exOpts gEx rng0 ((gEx.gen rng0).getD [])
      rfl rfl).1⟩

/-- C3: for every successfully constructed generator whose options carry
an exclusion string, no character of any `gen` output is a character of
that exclusion string. -/
theorem C3_output_avoids_exclusions (length : Nat) (o : PwdGenOptions)
    (exs : List Char) (g : PwdGen) (rng : Rng) (out : List Char)
    (hex : o.exclude = some exs)
    (hnew : PwdGen.new length (some o) = .ok g)
    (hgen : g.gen rng = some out) :
    ∀ c ∈ out, c ∉ exs := by
  obtain ⟨hgeq, -, -, -, -, -, -⟩ := new_ok_inv hnew
  subst hgeq
  obtain ⟨fr, hfr, hperm⟩ := gen_some_inv hgen
  obtain ⟨-, hfmem⟩ := fillChars_inv hfr
  obtain ⟨u, lo, d, s, hdecomp, hmu, hml, hmd, hms, -, -, -, -, -, -, -, -⟩ :=
    minPhase_spec (mkPwdGen length o) rng
  have hexcl : exclSet o = exs := by simp [exclSet, hex]
  intro c hc
  have hc2 := hperm.mem_iff.mp hc
  rcases List.mem_append.mp hc2 with hmp | hfr2
  · rw [hdecomp] at hmp
    rcases List.mem_append.mp hmp with h | h
    · exact hexcl ▸ mem_pool_not_excluded (hmu c h)
    rcases List.mem_append.mp h with h | h
    · exact hexcl ▸ mem_pool_not_excluded (hml c h)
    rcases List.mem_append.mp h with h | h
    · exact hexcl ▸ mem_pool_not_excluded (hmd c h)
    · exact hexcl ▸ mem_pool_not_excluded (hms c h)
  · have hch : c ∈ (mkPwdGen length o).charset := hfmem c hfr2
    rcases List.mem_append.mp hch with h | h
    swap
    · exact hexcl ▸ mem_pool_not_excluded h
    rcases List.mem_append.mp h with h | h
    swap
    · exact hexcl ▸ mem_pool_not_excluded h
    rcases List.mem_append.mp h with h | h
    · exact hexcl ▸ mem_pool_not_excluded h
    · exact hexcl ▸ mem_pool_not_excluded h

/-- C3 witness: with the character A excluded, no character of the
concrete generated output equals A. -/
theorem C3_witness :
    gEx.gen rng0 = some ((gEx.gen rng0).getD []) ∧
    ∀ c ∈ (gEx.gen rng0).getD [], c ∉ [Char.ofNat 65] :=
  ⟨rfl,
    C3_output_avoids_exclusions 9 exOpts [Char.ofNat 65] gEx rng0
      ((gEx.gen rng0).getD []) rfl rfl rfl⟩

/-- C4 (amended): for every successfully constructed generator whose
combined charset is nonempty, `gen` cannot fail: it always returns
normally.  (The restriction is forced: `PwdGen::new` accepts options
that exclude every character of all four domains with all minimums 0,
and on the resulting instance the empty-charset selection branch panics;
see the counterexample.) -/
theorem C4_gen_cannot_fail (length : Nat) (o : PwdGenOptions) (g : PwdGen)
    (_hnew : PwdGen.new length (some o) = .ok g)
    (hcs : g.charset ≠ []) (rng : Rng) :
    ∃ out, g.gen rng = some out := by
  obtain ⟨out, hout, -⟩ := gen_total hcs rng
  exact ⟨out, hout⟩

/-- C4 counterexample: the instance built from the all-excluding options
is returned with Ok by `PwdGen::new`, and `gen` on it reaches the
empty-charset selection branch and panics (modelled as `none`). -/
theorem C4_counterexample :
    PwdGen.new 8 (some emptyAllOpts) = .ok genEmptyAll ∧
    genEmptyAll.gen rng0 = none :=
  ⟨rfl, rfl⟩

/-- C4 witness: the default-options instance has a nonempty charset and
generation on it returns normally. -/
theorem C4_witness :
    gDefault.charset ≠ [] ∧ ∃ out, gDefault.gen rng0 = some out :=
  ⟨by decide,
    C4_gen_cannot_fail 8 PwdGenOptions.default_ gDefault rfl (by decide) rng0⟩

/-- C5: for every length ≥ 8, if the checked sum of the four category
minimums overflows `usize`, or the non-overflowing sum exceeds the
length, then `PwdGen::new` fails with `Error::MinLimitExceeded`; the
overflowing case is treated identically to the exceeding case. -/
theorem C5_overflow_is_min_limit (length : Nat) (o : PwdGenOptions)
    (h8 : MIN_LENGTH ≤ length)
    (hbad : checkedSum [o.min_upper, o.min_lower, o.min_digit,
        o.min_special] = none ∨
      ∃ s, checkedSum [o.min_upper, o.min_lower, o.min_digit,
        o.min_special] = some s ∧ length < s) :
    PwdGen.new length (some o) = .error .minLimitExceeded := by
  unfold PwdGen.new
  simp only [Option.getD_some]
  rw [validate_input_minLimit length o h8 hbad]

/-- C5 witness: minimums summing past `usize::MAX` at length 8 make the
checked sum overflow and construction fails with `MinLimitExceeded`. -/
theorem C5_witness :
    (MIN_LENGTH ≤ 8 ∧
      checkedSum [overflowOpts.min_upper, overflowOpts.min_lower,
        overflowOpts.min_digit, overflowOpts.min_special] = none) ∧
    PwdGen.new 8 (some overflowOpts) = .error .minLimitExceeded :=
  ⟨⟨by decide, by decide⟩,
    C5_overflow_is_min_limit 8 overflowOpts (by decide) (Or.inl (by decide))⟩

/-- C6: for every length < 8 and every options value (including none),
`PwdGen::new` fails with `Error::Length`; the length floor is checked
first, so no other error can be returned. -/
theorem C6_length_floor_first (length : Nat) (options : Option PwdGenOptions)
    (h : length < MIN_LENGTH) :
    PwdGen.new length options = .error .length := by
  simp only [PwdGen.new, validate_input, if_pos h]

/-- C6 witness: length 7 fails with `Error::Length`. -/
theorem C6_witness : 7 < MIN_LENGTH ∧ PwdGen.new 7 none = .error .length :=
  ⟨by decide, C6_length_floor_first 7 none (by decide)⟩

/-- C7: for every input passing the length and minimum-sum checks, if
some category's post-exclusion pool is smaller than its minimum, then
`PwdGen::new` fails with `InsufficientCharacters` naming the first such
category in the fixed order upper, lower, digit, special. -/
theorem C7_insufficient_names_first_category (length : Nat)
    (o : PwdGenOptions) (s : Nat) (c : String)
    (h8 : MIN_LENGTH ≤ length)
    (hsome : checkedSum [o.min_upper, o.min_lower, o.min_digit,
      o.min_special] = some s)
    (hsl : s ≤ length)
    (hc : firstInsufficient o = some c) :
    PwdGen.new length (some o) = .error (.insufficientCharacters c) := by
  unfold PwdGen.new
  simp only [Option.getD_some]
  rw [validate_input_insufficient length o s c h8 hsome hsl hc]

/-- C7 witness: requiring one lowercase character while excluding all of
them fails with `InsufficientCharacters("lower")`, the first
insufficient category in check order. -/
theorem C7_witness :
    (MIN_LENGTH ≤ 10 ∧
      checkedSum [insufOpts.min_upper, insufOpts.min_lower,
        insufOpts.min_digit, insufOpts.min_special] = some 1 ∧
      firstInsufficient insufOpts = some "lower") ∧
    PwdGen.new 10 (some insufOpts) = .error (.insufficientCharacters "lower") :=
  ⟨⟨by decide, by decide, by decide⟩,
    C7_insufficient_names_first_category 10 insufOpts 1 "lower" (by decide)
      (by decide) (by decide) (by decide)⟩

/-- C8: construction is a deterministic pure function of its inputs: two
calls of `PwdGen::new` with identical arguments either both fail with
the same error variant or both succeed with instances having equal
length, options, per-category pools, and combined charset. -/
theorem C8_construction_deterministic (length : Nat)
    (options : Option PwdGenOptions) :
    (∃ e, PwdGen.new length options = .error e ∧
      PwdGen.new length options = .error e) ∨
    (∃ g1 g2, PwdGen.new length options = .ok g1 ∧
      PwdGen.new length options = .ok g2 ∧
      g1.length = g2.length ∧ g1.options = g2.options ∧
      g1.upper = g2.upper ∧ g1.lower = g2.lower ∧ g1.digit = g2.digit ∧
      g1.special = g2.special ∧ g1.charset = g2.charset) := by
  cases h : PwdGen.new length options with
  | error e => exact Or.inl ⟨e, rfl, rfl⟩
  | ok g => exact Or.inr ⟨g, g, rfl, rfl, rfl, rfl, rfl, rfl, rfl, rfl, rfl⟩

/-- C9: for every successfully constructed generator, each per-category
pool is exactly the ordered subsequence of that category's fixed domain
obtained by removing every excluded character (the spec-side
`specFilteredPool`), and in particular a sublist of the domain: the
order is never permuted at construction. -/
theorem C9_pools_are_ordered_subsequences (length : Nat) (o : PwdGenOptions)
    (g : PwdGen) (hnew : PwdGen.new length (some o) = .ok g) :
    (g.upper = specFilteredPool upperChars (exclSet o) ∧
      List.Sublist g.upper upperChars) ∧
    (g.lower = specFilteredPool lowerChars (exclSet o) ∧
      List.Sublist g.lower lowerChars) ∧
    (g.digit = specFilteredPool digitChars (exclSet o) ∧
      List.Sublist g.digit digitChars) ∧
    (g.special = specFilteredPool SPECIAL_CHARS (exclSet o) ∧
      List.Sublist g.special SPECIAL_CHARS) := by
  obtain ⟨hgeq, -, -, -, -, -, -⟩ := new_ok_inv hnew
  subst hgeq
  exact ⟨⟨rfl, List.filter_sublist _⟩, ⟨rfl, List.filter_sublist _⟩,
    ⟨rfl, List.filter_sublist _⟩, ⟨rfl, List.filter_sublist _⟩⟩

/-- C9 witness: with the character A excluded, the constructed upper
pool equals the spec-side filtered pool of the uppercase domain. -/
theorem C9_witness :
    PwdGen.new 9 (some exOpts) = .ok gEx ∧
    gEx.upper = specFilteredPool upperChars (exclSet exOpts) :=
  ⟨rfl, (C9_pools_are_ordered_subsequences 9 exOpts gEx rfl).1.1⟩

/-- C10: for every successfully constructed generator, the buffer
accumulated by the four minimum-draw steps of `gen` has length at most
the sum of the four minimums, which validation bounded by the target
length, so the fill count `length - buffer.length` never underflows
(the truncated subtraction is exact). -/
theorem C10_fill_count_no_underflow (length : Nat) (o : PwdGenOptions)
    (g : PwdGen) (rng : Rng)
    (hnew : PwdGen.new length (some o) = .ok g) :
    (minPhase g rng).1.length ≤
      o.min_upper + o.min_lower + o.min_digit + o.min_special ∧
    (minPhase g rng).1.length ≤ g.length ∧
    (minPhase g rng).1.length + (g.length - (minPhase g rng).1.length) =
      g.length := by
  obtain ⟨hgeq, -, -, -, -, -, hsum⟩ := new_ok_inv hnew
  subst hgeq
  obtain ⟨u, lo, d, s, hdecomp, -, -, -, -, hule, hlle, hdle, hsle,
    -, -, -, -⟩ := minPhase_spec (mkPwdGen length o) rng
  have h1 : u.length ≤ o.min_upper := hule
  have h2 : lo.length ≤ o.min_lower := hlle
  have h3 : d.length ≤ o.min_digit := hdle
  have h4 : s.length ≤ o.min_special := hsle
  have hglen : (mkPwdGen length o).length = length := rfl
  have hmp : (minPhase (mkPwdGen length o) rng).1.length =
      u.length + (lo.length + (d.length + s.length)) := by
    rw [hdecomp]
    simp only [List.length_append]
  rw [hglen, hmp]
  omega

/-- C10 witness: for the default-options instance at length 8, the
accumulated buffer is no longer than the target length. -/
theorem C10_witness :
    PwdGen.new 8 (some PwdGenOptions.default_) = .ok gDefault ∧
    (minPhase gDefault rng0).1.length ≤ gDefault.length :=
  ⟨rfl,
    (C10_fill_count_no_underflow 8 PwdGenOptions.default_ gDefault rng0
      rfl).2.1⟩

end Pwdg

